import Mathlib

/-!
Shallow embedding of `id_generator.py`: the field abstraction and the
pack/unpack engine of the composite-id generator, together with proofs of
the specified properties.

Modelling conventions.
* Python integers are unbounded, so they are embedded as `Int` (or `Nat`
  where the source value is provably non-negative, e.g. an assembled id).
* A naive Python `datetime.datetime` is embedded as the whole number of
  seconds since `0001-01-01 00:00:00` (the smallest `datetime`); naive
  datetime arithmetic is exact calendar arithmetic, every day lasting
  86400 seconds, so `dt2 - dt1` in seconds is the difference of the two
  embeddings.  A `datetime.time` is the number of seconds since midnight.
* A string produced by `strftime` at one of the configured precisions
  shows exactly the calendar components down to that precision, so it is
  determined by (and determines) the instant truncated down to a multiple
  of the precision's seconds-per-unit.  Such strings are embedded as
  `RawValue.dtstr`/`RawValue.timestr` carrying the precision and the
  instant the string parses back to (`strptime` fills missing smaller
  components with their minimum, i.e. zero).  A string formatted at one
  precision never parses under a different precision's format
  (`strptime` fails on missing input or unconverted trailing data).
* `DateTimeField.encode` computes `int(seconds / precision)` with float
  division; for every representable `datetime` the total-seconds value is
  an integer below `2 ^ 39`, far inside the 53-bit exact range of binary64,
  and the quotient's rounding error (at most half an ulp, i.e. below
  `2 ^ -14` for these magnitudes) is smaller than the least possible
  distance (`1 / 86400`) from a non-integer exact quotient to an integer,
  so `int(seconds / precision)` equals the exact quotient truncated
  towards zero: `Int.tdiv`.  Python `//` and `divmod` are floor division:
  `Int.fdiv` / `Int.fmod`.
* The random draws (`random.Random.randint`) and the current clock
  (`datetime.datetime.now`) are modelled as explicit oracle arguments;
  theorems that need the `randint` bounds take them as hypotheses.
* A `SequenceField`'s cache (a dict, or a `FileCache`) is a key → value
  store embedded as an association list where an update prepends the new
  binding; `List.lookup` then sees the newest binding, matching dict
  semantics.  Each field owns its cache, so the generator pipeline
  threads one cache per field position.
-/

namespace IdGen

/-- String literal used as the key join delimiter (`'-'.join`). -/
def dashSep : String := "-"

/-- `DateTimeField.Precision` (an `IntEnum` whose value is the number of
seconds per unit): DAY, HOUR, MINUTE, SECOND. -/
inductive DateTimePrecision where
  | day
  | hour
  | minute
  | second
  deriving DecidableEq, Repr

/-- The `IntEnum` value of a `DateTimeField.Precision`: seconds per unit. -/
def DateTimePrecision.seconds : DateTimePrecision → Nat
  | .day => 3600 * 24
  | .hour => 3600
  | .minute => 60
  | .second => 1

/-- `TimeField.Precision`: HOUR, MINUTE, SECOND (seconds per unit). -/
inductive TimePrecision where
  | hour
  | minute
  | second
  deriving DecidableEq, Repr

/-- The `IntEnum` value of a `TimeField.Precision`: seconds per unit. -/
def TimePrecision.seconds : TimePrecision → Nat
  | .hour => 3600
  | .minute => 60
  | .second => 1

/-- The embedding of `datetime.max` at whole-second resolution: seconds
from `0001-01-01 00:00:00` to `9999-12-31 23:59:59`, i.e.
`3652058 * 86400 + 86399` (Python: `datetime.max.toordinal() = 3652059`,
`datetime.min.toordinal() = 1`).  `decode` results beyond this bound (or
below `0`) raise `OverflowError` in `base + timedelta(...)`. -/
def pyMaxDateTime : Int := 315537897599

/-- A Python raw field value: an `int`, a `strftime`-formatted datetime or
time-of-day string (embedded per the conventions above), or a string that
parses neither as an `int` nor under any of the configured formats. -/
inductive RawValue where
  | int (n : Int)
  | dtstr (p : DateTimePrecision) (t : Int)
  | timestr (p : TimePrecision) (t : Nat)
  | badstr (s : String)
  deriving DecidableEq, Repr

/-- The exceptions the source raises, tagged by the spec's taxonomy:
`encodeError` (`int()` / `strptime` failures), `rangeError`
(`NumberField.decode`'s `ValueError`, and `datetime.time`'s `ValueError`
on an hour outside 0..23), `overflowError` (`OverflowError` from
datetime arithmetic out of range), `assembleError` (`_assemble`'s
out-of-bits-range `ValueError`), `malformedIdError` (`_disassemble`'s
nonzero-remainder `ValueError`), `keyError` (a missing dict key), and
`lengthMismatch` (`_assemble`'s parts/fields count `ValueError`). -/
inductive IdError where
  | encodeError
  | rangeError
  | overflowError
  | assembleError
  | malformedIdError
  | keyError
  | lengthMismatch
  deriving DecidableEq, Repr

/-- Python `int(value)` on a raw value, `none` when it raises.  An `int`
is returned unchanged.  Of the formatted strings, only a `TimeField`
string at HOUR precision (format `%H`, e.g. `05`) is all digits and hence
parses as an `int` (its hour); every other format contains `-` or `:` and
fails, as does a `badstr`. -/
def RawValue.pyInt? : RawValue → Option Int
  | .int n => some n
  | .timestr .hour t => some (Int.ofNat (t / 3600))
  | .timestr .minute _ => none
  | .timestr .second _ => none
  | .dtstr _ _ => none
  | .badstr _ => none

/-- A field definition: the `IdField` subclasses with their constructor
parameters (`id_generator.py` lines 15-157).  `number` carries `start`
and the resolved `end`; `dateTime` carries the precision and the embedded
`base` instant; `sequence` carries the resolved `(min, max)` pairs for
`start` and `step`, plus `keys`. -/
inductive Field where
  | number (name : String) (bits : Nat) (start endVal : Int)
  | dateTime (name : String) (bits : Nat) (p : DateTimePrecision) (base : Int)
  | time (name : String) (bits : Nat) (p : TimePrecision)
  | sequence (name : String) (bits : Nat) (start step : Int × Int) (keys : List String)
  deriving DecidableEq, Repr

/-- `self.name`. -/
def Field.name : Field → String
  | .number n _ _ _ => n
  | .dateTime n _ _ _ => n
  | .time n _ _ => n
  | .sequence n _ _ _ _ => n

/-- `self.bits`. -/
def Field.bits : Field → Nat
  | .number _ b _ _ => b
  | .dateTime _ b _ _ => b
  | .time _ b _ => b
  | .sequence _ b _ _ _ => b

/-- `IdField.mask`: `(1 << self.bits) - 1`. -/
def Field.mask (f : Field) : Nat := (1 <<< f.bits) - 1

/-- The `NumberField` constructor: `end` defaults to `self.mask` when
unset (`None`). -/
def NumberField.make (name : String) (bits : Nat) (start : Int) (endOpt : Option Int) : Field :=
  .number name bits start (endOpt.getD (Int.ofNat ((1 <<< bits) - 1)))

/-- An `IdGenerator`: a name and an ordered list of fields. -/
structure IdGenerator where
  name : String
  fields : List Field

/-- The loop body of `IdGenerator._assemble` over `zip(parts, fields)`:
check `0 <= number <= field.mask`, then `id_num = (id_num << field.bits) | number`. -/
def assembleLoop : List (Int × Field) → Nat → Except IdError Nat
  | [], idNum => .ok idNum
  | (number, f) :: rest, idNum =>
    if 0 ≤ number ∧ number ≤ Int.ofNat f.mask then
      assembleLoop rest ((idNum <<< f.bits) ||| number.toNat)
    else
      .error .assembleError

/-- `IdGenerator._assemble` (lines 200-213): length check, then the
shift-and-or accumulation. -/
def IdGenerator._assemble (g : IdGenerator) (parts : List Int) : Except IdError Nat :=
  if parts.length ≠ g.fields.length then .error .lengthMismatch
  else assembleLoop (parts.zip g.fields) 0

/-- The loop of `IdGenerator._disassemble` over `reversed(fields)`:
`number = id_num & field.mask; parts.append(number); id_num >>= field.bits`.
The source appends and finally returns `list(reversed(parts))`; consing
onto the accumulator builds that reversed list directly. -/
def disassembleLoop : List Field → Nat → List Int → List Int × Nat
  | [], idNum, parts => (parts, idNum)
  | f :: rest, idNum, parts =>
    disassembleLoop rest (idNum >>> f.bits) (Int.ofNat (idNum &&& f.mask) :: parts)

/-- `IdGenerator._disassemble` (lines 215-226): mask-and-shift over the
reversed field list, then fail unless the remainder is zero. -/
def IdGenerator._disassemble (g : IdGenerator) (idNum : Nat) : Except IdError (List Int) :=
  let r := disassembleLoop g.fields.reverse idNum []
  if r.2 ≠ 0 then .error .malformedIdError
  else .ok r.1

/-- Total declared width: `Σ field.bits`. -/
def totalBits (fields : List Field) : Nat := (fields.map Field.bits).sum

/-- The spec's closed-form packing formula (stated from the spec, for the
refinement claim): `id = Σ part[i] << (bits[i+1] + ... + bits[n-1])`,
first field most significant. -/
def closedFormSpec : List Field → List Int → Nat
  | [], _ => 0
  | _ :: _, [] => 0
  | _ :: rest, p :: ps => (p.toNat <<< totalBits rest) + closedFormSpec rest ps

@[simp] theorem totalBits_nil : totalBits [] = 0 := rfl

@[simp] theorem totalBits_cons (f : Field) (rest : List Field) :
    totalBits (f :: rest) = f.bits + totalBits rest := by
  simp [totalBits]

theorem totalBits_reverse (fields : List Field) :
    totalBits fields.reverse = totalBits fields := by
  simp [totalBits, List.map_reverse, List.sum_reverse]

theorem mask_eq (f : Field) : f.mask = 2 ^ f.bits - 1 := by
  simp [Field.mask, Nat.shiftLeft_eq]

theorem toNat_lt_two_pow_bits {p : Int} {f : Field}
    (h : 0 ≤ p ∧ p ≤ Int.ofNat f.mask) : p.toNat < 2 ^ f.bits := by
  have hpos := Nat.two_pow_pos f.bits
  have h3 : p.toNat ≤ f.mask := Int.toNat_le.mpr h.2
  have hm := mask_eq f
  omega

theorem assembleLoop_ok (fields : List Field) (parts : List Int) (acc : Nat)
    (hlen : parts.length = fields.length)
    (hin : ∀ pf ∈ parts.zip fields, 0 ≤ pf.1 ∧ pf.1 ≤ Int.ofNat pf.2.mask) :
    assembleLoop (parts.zip fields) acc =
      .ok (acc * 2 ^ totalBits fields + closedFormSpec fields parts) := by
  induction fields generalizing parts acc with
  | nil =>
    cases parts with
    | nil => simp [assembleLoop, closedFormSpec]
    | cons p ps => simp at hlen
  | cons f rest ih =>
    cases parts with
    | nil => simp at hlen
    | cons p ps =>
      have hp : 0 ≤ p ∧ p ≤ Int.ofNat f.mask := hin (p, f) (by simp)
      have hplt : p.toNat < 2 ^ f.bits := toNat_lt_two_pow_bits hp
      have hor : acc <<< f.bits ||| p.toNat = acc * 2 ^ f.bits + p.toNat := by
        rw [Nat.shiftLeft_eq, Nat.mul_comm acc (2 ^ f.bits),
          ← Nat.mul_add_lt_is_or hplt acc, Nat.mul_comm (2 ^ f.bits) acc]
      have htail : ∀ pf ∈ ps.zip rest, 0 ≤ pf.1 ∧ pf.1 ≤ Int.ofNat pf.2.mask := by
        intro pf hm
        exact hin pf (by simp [hm])
      have harith : (acc * 2 ^ f.bits + p.toNat) * 2 ^ totalBits rest + closedFormSpec rest ps
          = acc * 2 ^ totalBits (f :: rest)
            + closedFormSpec (f :: rest) (p :: ps) := by
        simp only [closedFormSpec, totalBits_cons, Nat.shiftLeft_eq]
        ring
      have hz : (p :: ps).zip (f :: rest) = (p, f) :: ps.zip rest := rfl
      rw [hz]
      simp only [assembleLoop]
      rw [if_pos hp, hor, ih ps _ (by simpa using hlen) htail, harith]

/-- The per-field low-bits decomposition of an id, in processing order:
head is the value of the first processed field (low `bits` bits), and the
tail decomposes the shifted remainder. -/
def lowParts : List Field → Nat → List Int
  | [], _ => []
  | f :: rest, idNum => Int.ofNat (idNum % 2 ^ f.bits) :: lowParts rest (idNum / 2 ^ f.bits)

theorem lowParts_length (ls : List Field) (idNum : Nat) :
    (lowParts ls idNum).length = ls.length := by
  induction ls generalizing idNum with
  | nil => rfl
  | cons f rest ih => simp [lowParts, ih]

theorem disassembleLoop_eq (ls : List Field) (idNum : Nat) (acc : List Int) :
    disassembleLoop ls idNum acc =
      ((lowParts ls idNum).reverse ++ acc, idNum / 2 ^ totalBits ls) := by
  induction ls generalizing idNum acc with
  | nil => simp [disassembleLoop, lowParts]
  | cons f rest ih =>
    have hmask : idNum &&& f.mask = idNum % 2 ^ f.bits := by
      rw [mask_eq, Nat.and_pow_two_sub_one_eq_mod]
    have hshift : idNum >>> f.bits = idNum / 2 ^ f.bits :=
      Nat.shiftRight_eq_div_pow idNum f.bits
    simp only [disassembleLoop, lowParts, hmask, hshift, ih, List.reverse_cons,
      List.append_assoc, List.singleton_append, totalBits_cons, pow_add,
      Nat.div_div_eq_div_mul]

theorem disassemble_eq (g : IdGenerator) (idNum : Nat) :
    g._disassemble idNum =
      if idNum / 2 ^ totalBits g.fields ≠ 0 then .error .malformedIdError
      else .ok (lowParts g.fields.reverse idNum).reverse := by
  unfold IdGenerator._disassemble
  rw [disassembleLoop_eq, totalBits_reverse]
  simp

theorem lowParts_append (l1 l2 : List Field) (idNum : Nat) :
    lowParts (l1 ++ l2) idNum =
      lowParts l1 idNum ++ lowParts l2 (idNum / 2 ^ totalBits l1) := by
  induction l1 generalizing idNum with
  | nil => simp [lowParts]
  | cons f rest ih =>
    simp [lowParts, ih, Nat.div_div_eq_div_mul, pow_add]

theorem lowParts_add_high (ls : List Field) (idNum k : Nat) :
    lowParts ls (idNum + 2 ^ totalBits ls * k) = lowParts ls idNum := by
  induction ls generalizing idNum k with
  | nil => rfl
  | cons f rest ih =>
    have h2 : (0 : Nat) < 2 ^ f.bits := Nat.two_pow_pos f.bits
    simp only [lowParts, totalBits_cons, pow_add, Nat.mul_assoc]
    rw [Nat.add_mul_mod_self_left, Nat.add_mul_div_left _ _ h2, ih]

theorem closedFormSpec_lt (fields : List Field) (parts : List Int)
    (hlen : parts.length = fields.length)
    (hin : ∀ pf ∈ parts.zip fields, 0 ≤ pf.1 ∧ pf.1 ≤ Int.ofNat pf.2.mask) :
    closedFormSpec fields parts < 2 ^ totalBits fields := by
  induction fields generalizing parts with
  | nil =>
    cases parts with
    | nil => simp [closedFormSpec]
    | cons p ps => simp at hlen
  | cons f rest ih =>
    cases parts with
    | nil => simp at hlen
    | cons p ps =>
      have hp : 0 ≤ p ∧ p ≤ Int.ofNat f.mask := hin (p, f) (by simp)
      have hplt : p.toNat < 2 ^ f.bits := toNat_lt_two_pow_bits hp
      have htail : ∀ pf ∈ ps.zip rest, 0 ≤ pf.1 ∧ pf.1 ≤ Int.ofNat pf.2.mask := by
        intro pf hm
        exact hin pf (by simp [hm])
      have hcf : closedFormSpec rest ps < 2 ^ totalBits rest :=
        ih ps (by simpa using hlen) htail
      calc closedFormSpec (f :: rest) (p :: ps)
          = p.toNat * 2 ^ totalBits rest + closedFormSpec rest ps := by
            simp [closedFormSpec, Nat.shiftLeft_eq]
        _ < p.toNat * 2 ^ totalBits rest + 2 ^ totalBits rest :=
            Nat.add_lt_add_left hcf _
        _ = (p.toNat + 1) * 2 ^ totalBits rest := by ring
        _ ≤ 2 ^ f.bits * 2 ^ totalBits rest :=
            Nat.mul_le_mul_right _ hplt
        _ = 2 ^ totalBits (f :: rest) := by rw [totalBits_cons, pow_add]

theorem lowParts_reverse_closedForm (fields : List Field) (parts : List Int)
    (hlen : parts.length = fields.length)
    (hin : ∀ pf ∈ parts.zip fields, 0 ≤ pf.1 ∧ pf.1 ≤ Int.ofNat pf.2.mask) :
    lowParts fields.reverse (closedFormSpec fields parts) = parts.reverse := by
  induction fields generalizing parts with
  | nil =>
    cases parts with
    | nil => rfl
    | cons p ps => simp at hlen
  | cons f rest ih =>
    cases parts with
    | nil => simp at hlen
    | cons p ps =>
      have hp : 0 ≤ p ∧ p ≤ Int.ofNat f.mask := hin (p, f) (by simp)
      have hplt : p.toNat < 2 ^ f.bits := toNat_lt_two_pow_bits hp
      have htail : ∀ pf ∈ ps.zip rest, 0 ≤ pf.1 ∧ pf.1 ≤ Int.ofNat pf.2.mask := by
        intro pf hm
        exact hin pf (by simp [hm])
      have hcf : closedFormSpec rest ps < 2 ^ totalBits rest :=
        closedFormSpec_lt rest ps (by simpa using hlen) htail
      have h2 : (0 : Nat) < 2 ^ totalBits rest := Nat.two_pow_pos _
      have hrearr : closedFormSpec (f :: rest) (p :: ps)
          = closedFormSpec rest ps + 2 ^ totalBits rest * p.toNat := by
        simp only [closedFormSpec, Nat.shiftLeft_eq]
        ring
      have hlow : lowParts rest.reverse
            (closedFormSpec rest ps + 2 ^ totalBits rest * p.toNat)
          = lowParts rest.reverse (closedFormSpec rest ps) := by
        have h := lowParts_add_high rest.reverse (closedFormSpec rest ps) p.toNat
        rwa [totalBits_reverse] at h
      rw [List.reverse_cons, lowParts_append, hrearr, totalBits_reverse,
        hlow, ih ps (by simpa using hlen) htail,
        Nat.add_mul_div_left _ _ h2, Nat.div_eq_of_lt hcf]
      simp only [lowParts, Nat.zero_add, Nat.mod_eq_of_lt hplt,
        List.reverse_cons]
      have hback : Int.ofNat p.toNat = p := by
        simpa using Int.toNat_of_nonneg hp.1
      rw [hback]

theorem lowParts_in_range (ls : List Field) (idNum : Nat) :
    ∀ pf ∈ (lowParts ls idNum).zip ls, 0 ≤ pf.1 ∧ pf.1 ≤ Int.ofNat pf.2.mask := by
  induction ls generalizing idNum with
  | nil => simp [lowParts]
  | cons f rest ih =>
    intro pf hm
    simp only [lowParts, List.zip_cons_cons, List.mem_cons] at hm
    rcases hm with h | h
    · subst h
      have hm2 := mask_eq f
      have hlt : idNum % 2 ^ f.bits < 2 ^ f.bits :=
        Nat.mod_lt _ (Nat.two_pow_pos f.bits)
      refine ⟨Int.ofNat_nonneg _, ?_⟩
      show Int.ofNat (idNum % 2 ^ f.bits) ≤ Int.ofNat f.mask
      exact Int.ofNat_le.mpr (by omega)
    · exact ih _ pf h

/-- `IdField.encode` (lines 29-31): `int(value)`; raises when the value
is not parseable as an integer.  Inherited by `NumberField` and
`SequenceField`. -/
def IdField.encode (v : RawValue) : Except IdError Int :=
  match v.pyInt? with
  | some n => .ok n
  | none => .error .encodeError

/-- `IdField.decode` (lines 33-35): returns the number unchanged.
Inherited by `SequenceField`. -/
def IdField.decode (number : Int) : Except IdError RawValue :=
  .ok (.int number)

/-- `DateTimeField.encode` (lines 63-67): `strptime` the string (fails
unless it is formatted at this field's precision), subtract `base`, and
truncate the quotient by the precision's seconds-per-unit towards zero
(`int(seconds / self.precision)`, exact for every representable datetime
per the float analysis in the header comment). -/
def DateTimeField.encode (p : DateTimePrecision) (base : Int) (v : RawValue) :
    Except IdError Int :=
  match v with
  | .dtstr q t => if q = p then .ok (Int.tdiv (t - base) (Int.ofNat p.seconds)) else .error .encodeError
  | _ => .error .encodeError

/-- `DateTimeField.decode` (lines 69-73): `base + timedelta(seconds =
number * precision)` — `OverflowError` when the result leaves the
representable datetime range — then `strftime` at this precision, which
shows the instant truncated down (floor) to a whole number of precision
units. -/
def DateTimeField.decode (p : DateTimePrecision) (base : Int) (number : Int) :
    Except IdError RawValue :=
  let t := base + number * Int.ofNat p.seconds
  if t < 0 ∨ pyMaxDateTime < t then .error .overflowError
  else .ok (.dtstr p (Int.ofNat p.seconds * Int.fdiv t (Int.ofNat p.seconds)))

/-- `TimeField.encode` (lines 98-102): `strptime` the time-of-day string
(fails unless it is formatted at this field's precision; the parsed
components sum to the embedded seconds-since-midnight value, missing
components being zero), then floor-divide by the precision
(`seconds // self.precision`). -/
def TimeField.encode (p : TimePrecision) (v : RawValue) : Except IdError Int :=
  match v with
  | .timestr q t => if q = p then .ok (Int.ofNat (t / p.seconds)) else .error .encodeError
  | _ => .error .encodeError

/-- `TimeField.decode` (lines 104-110): `seconds = number * precision`,
then `divmod` (floor division) into hour/minute/second;
`datetime.time(hour, minute, second)` raises `ValueError` unless
`0 <= hour <= 23` (minute and second are within range by construction);
finally `strftime` at this precision shows the value truncated down to a
whole number of precision units. -/
def TimeField.decode (p : TimePrecision) (number : Int) : Except IdError RawValue :=
  let seconds := number * Int.ofNat p.seconds
  let hour := Int.fdiv seconds 3600
  let rem := Int.fmod seconds 3600
  let minute := Int.fdiv rem 60
  let second := Int.fmod rem 60
  if hour < 0 ∨ 23 < hour then .error .rangeError
  else
    let total : Nat := (hour * 3600 + minute * 60 + second).toNat
    .ok (.timestr p (p.seconds * (total / p.seconds)))

/-- `NumberField.decode` (lines 154-157): raises `ValueError` (the spec's
`RangeError`) unless `start <= number <= end`. -/
def NumberField.decode (start endVal : Int) (number : Int) : Except IdError RawValue :=
  if ¬(start ≤ number ∧ number ≤ endVal) then .error .rangeError
  else .ok (.int number)

/-- Dispatch of `encode` over the field variants: `NumberField` and
`SequenceField` inherit `IdField.encode`. -/
def Field.encode : Field → RawValue → Except IdError Int
  | .number _ _ _ _, v => IdField.encode v
  | .sequence _ _ _ _ _, v => IdField.encode v
  | .dateTime _ _ p base, v => DateTimeField.encode p base v
  | .time _ _ p, v => TimeField.encode p v

/-- Dispatch of `decode` over the field variants: `SequenceField`
inherits `IdField.decode`. -/
def Field.decode : Field → Int → Except IdError RawValue
  | .number _ _ s e, n => NumberField.decode s e n
  | .sequence _ _ _ _ _, n => IdField.decode n
  | .dateTime _ _ p base, n => DateTimeField.decode p base n
  | .time _ _ p, n => TimeField.decode p n

/-- A `SequenceField` cache: key → last issued value.  An update
prepends, so `List.lookup` sees the newest binding (dict semantics). -/
abbrev Cache := List (String × Int)

/-- The generation context `info`: an insertion-ordered name → raw value
mapping. -/
abbrev Info := List (String × RawValue)

def dtTag : String := "dt"

def tmTag : String := "tm"

def colonSep : String := ":"

/-- Python `str(value)` on a raw value, used when joining key parts.  For
an `int` it is the exact decimal form; for the formatted strings it is an
injective stand-in for the `strftime` output (key joining only relies on
the text determining the value). -/
def RawValue.pyStr : RawValue → String
  | .int n => toString n
  | .dtstr p t => dtTag ++ colonSep ++ toString p.seconds ++ colonSep ++ toString t
  | .timestr p t => tmTag ++ colonSep ++ toString p.seconds ++ colonSep ++ toString t
  | .badstr s => s

/-- The key computation of `SequenceField.generate` (lines 128-131):
`'-'.join(str(info[k]) for k in self.keys)` when `self.keys` is truthy
(non-empty), raising `KeyError` when a named context entry is missing;
the field's own name otherwise. -/
def SequenceField.key (name : String) (keys : List String) (info : Info) :
    Except IdError String :=
  if keys.isEmpty then .ok name
  else do
    let strs ← keys.mapM (fun k =>
      match info.lookup k with
      | some v => Except.ok v.pyStr
      | none => Except.error IdError.keyError)
    .ok (String.intercalate dashSep strs)

/-- `SequenceField.generate` (lines 126-141).  The single `randint` the
call performs — `_next_seq`'s `randint(*step)` when the key is cached,
`_new_seq`'s `randint(*start)` otherwise — is the oracle argument
`draw`; theorems constrain it to the relevant interval.  The new value
is written back under the key before being returned. -/
def SequenceField.generate (name : String) (_start _step : Int × Int) (keys : List String)
    (info : Info) (cache : Cache) (draw : Int) : Except IdError (Int × Cache) :=
  match SequenceField.key name keys info with
  | .error e => .error e
  | .ok key =>
    match cache.lookup key with
    | some prev => .ok (prev + draw, (key, prev + draw) :: cache)
    | none => .ok (draw, (key, draw) :: cache)

/-- Dispatch of `generate` over the field variants.  `ora` is the
oracle: the `randint` draw for `NumberField`/`SequenceField`, the
current clock (embedded seconds) for the time fields.  `NumberField`
returns the draw; `DateTimeField`/`TimeField` format the clock at their
precision (truncation down to a precision bucket; the time-of-day is the
clock modulo 86400); only `SequenceField` touches its cache. -/
def Field.generate (f : Field) (info : Info) (cache : Cache) (ora : Int) :
    Except IdError (RawValue × Cache) :=
  match f with
  | .number _ _ _ _ => .ok (.int ora, cache)
  | .dateTime _ _ p _ =>
    .ok (.dtstr p (Int.ofNat p.seconds * Int.fdiv ora (Int.ofNat p.seconds)), cache)
  | .time _ _ p =>
    let tod := (Int.emod ora 86400).toNat
    .ok (.timestr p (p.seconds * (tod / p.seconds)), cache)
  | .sequence name _ start step keys =>
    match SequenceField.generate name start step keys info cache ora with
    | .ok (seq, c) => .ok (.int seq, c)
    | .error e => .error e

/-- Caller-supplied custom data: name → raw value. -/
abbrev CustomData := List (String × RawValue)

/-- The loop of `IdGenerator._generate` (lines 179-188): for each field
in order, take the custom value when supplied, otherwise call the
field's `generate` on the context so far; insert the result before the
next field.  `caches` holds each field's own cache by field position;
`ora i` is field `i`'s oracle draw.  On an exception the loop stops and
the caches mutated so far are kept (Python state outlives the raised
exception). -/
def genLoop : List Field → Nat → Info → CustomData → List Cache → (Nat → Int) →
    Except IdError Info × List Cache
  | [], _, info, _, caches, _ => (.ok info, caches)
  | f :: rest, i, info, custom, caches, ora =>
    match custom.lookup f.name with
    | some v => genLoop rest (i + 1) (info ++ [(f.name, v)]) custom caches ora
    | none =>
      match f.generate info (caches.getD i []) (ora i) with
      | .ok (v, c) =>
        genLoop rest (i + 1) (info ++ [(f.name, v)]) custom (caches.set i c) ora
      | .error e => (.error e, caches)

/-- `IdGenerator._generate` (lines 179-188). -/
def IdGenerator._generate (g : IdGenerator) (custom : CustomData) (caches : List Cache)
    (ora : Nat → Int) : Except IdError Info × List Cache :=
  genLoop g.fields 0 [] custom caches ora

/-- `IdGenerator._encode` (lines 190-193): `[field.encode(info[field.name])
for field in self.fields]`; the comprehension raises at the first failing
encode (or missing key). -/
def IdGenerator._encode (g : IdGenerator) (info : Info) : Except IdError (List Int) :=
  g.fields.mapM (fun f =>
    match info.lookup f.name with
    | some v => f.encode v
    | none => .error IdError.keyError)

/-- `IdGenerator.generate` (lines 165-170): `_generate`, then `_encode`,
then `_assemble`, then `_format` (the identity).  The returned caches
are whatever the `_generate` phase left behind, whether or not a later
phase raised. -/
def IdGenerator.generate (g : IdGenerator) (custom : CustomData) (caches : List Cache)
    (ora : Nat → Int) : Except IdError Nat × List Cache :=
  match g._generate custom caches ora with
  | (.error e, cs) => (.error e, cs)
  | (.ok info, cs) =>
    match g._encode info with
    | .error e => (.error e, cs)
    | .ok parts =>
      match g._assemble parts with
      | .error e => (.error e, cs)
      | .ok idNum => (.ok idNum, cs)

theorem zip_reverse {α β : Type} (l1 : List α) (l2 : List β) (h : l1.length = l2.length) :
    l1.reverse.zip l2.reverse = (l1.zip l2).reverse := by
  induction l1 generalizing l2 with
  | nil =>
    cases l2 with
    | nil => rfl
    | cons b bs => simp at h
  | cons a as ih =>
    cases l2 with
    | nil => simp at h
    | cons b bs =>
      have hlen3 : as.length = bs.length := by simpa using h
      simp only [List.reverse_cons, List.zip_cons_cons]
      rw [List.zip_append (by simpa using hlen3), ih bs hlen3]
      simp

theorem assembleLoop_error_iff (l : List (Int × Field)) (acc : Nat) :
    assembleLoop l acc = .error .assembleError ↔
      ∃ pf ∈ l, ¬(0 ≤ pf.1 ∧ pf.1 ≤ Int.ofNat pf.2.mask) := by
  induction l generalizing acc with
  | nil =>
    simp only [assembleLoop]
    constructor
    · intro hcontr
      exact Except.noConfusion hcontr
    · rintro ⟨pf, hmem, _⟩
      simp at hmem
  | cons pf rest ih =>
    obtain ⟨p, f⟩ := pf
    by_cases h : 0 ≤ p ∧ p ≤ Int.ofNat f.mask
    · simp only [assembleLoop, if_pos h]
      rw [ih]
      constructor
      · rintro ⟨qf, hmem, hq⟩
        exact ⟨qf, List.mem_cons_of_mem _ hmem, hq⟩
      · rintro ⟨qf, hmem, hq⟩
        rcases List.mem_cons.mp hmem with rfl | hmem2
        · exact absurd h hq
        · exact ⟨qf, hmem2, hq⟩
    · simp only [assembleLoop, if_neg h]
      constructor
      · intro _
        exact ⟨(p, f), List.mem_cons_self _ _, h⟩
      · intro _
        trivial

/-- A concrete two-field generator used as a witness input. -/
def aName : String := "a"

def bName : String := "b"

def wName : String := "w"

def wGen : IdGenerator :=
  ⟨wName, [Field.number aName 2 0 3, Field.number bName 3 0 7]⟩

/-- Claim C1: for every generator and every parts list with exactly one
entry per field, each within its field's mask, `_assemble` succeeds and
`_disassemble` of the result returns the original parts. -/
theorem claimC1_assemble_disassemble_inverse (g : IdGenerator) (parts : List Int)
    (hlen : parts.length = g.fields.length)
    (hin : ∀ pf ∈ parts.zip g.fields, 0 ≤ pf.1 ∧ pf.1 ≤ Int.ofNat pf.2.mask) :
    ∃ idNum, g._assemble parts = .ok idNum ∧ g._disassemble idNum = .ok parts := by
  refine ⟨closedFormSpec g.fields parts, ?_, ?_⟩
  · unfold IdGenerator._assemble
    rw [if_neg (by simp [hlen])]
    simpa using assembleLoop_ok g.fields parts 0 hlen hin
  · have hlt := closedFormSpec_lt g.fields parts hlen hin
    rw [disassemble_eq, if_neg (by simp [Nat.div_eq_of_lt hlt]),
      lowParts_reverse_closedForm g.fields parts hlen hin, List.reverse_reverse]

/-- Witness for claim C1 at a concrete generator and parts list. -/
theorem claimC1_witness :
    ∃ idNum, wGen._assemble [3, 2] = .ok idNum ∧ wGen._disassemble idNum = .ok [3, 2] :=
  claimC1_assemble_disassemble_inverse wGen [3, 2] (by decide) (by decide)

/-- Claim C3: `_disassemble` fails with the malformed-id error exactly
when the input is at least `2 ^ (total declared width)`; below that
bound it returns normally. -/
theorem claimC3_disassemble_malformed_iff (g : IdGenerator) (idNum : Nat) :
    (g._disassemble idNum = .error .malformedIdError ↔ 2 ^ totalBits g.fields ≤ idNum) ∧
    (idNum < 2 ^ totalBits g.fields → ∃ parts, g._disassemble idNum = .ok parts) := by
  have hpos : 0 < 2 ^ totalBits g.fields := Nat.two_pow_pos _
  by_cases h : idNum < 2 ^ totalBits g.fields
  · have hz : idNum / 2 ^ totalBits g.fields = 0 := Nat.div_eq_of_lt h
    rw [disassemble_eq, if_neg (by simp [hz])]
    refine ⟨⟨fun hcontr => Except.noConfusion hcontr, fun hle => by omega⟩, ?_⟩
    intro _
    exact ⟨_, rfl⟩
  · have hnz : idNum / 2 ^ totalBits g.fields ≠ 0 := by
      have h1 : 1 ≤ idNum / 2 ^ totalBits g.fields :=
        (Nat.one_le_div_iff hpos).mpr (by omega)
      omega
    rw [disassemble_eq, if_pos hnz]
    exact ⟨⟨fun _ => by omega, fun _ => rfl⟩, fun hlt => by omega⟩

/-- Witness for claim C3 at a concrete generator (total width 5): id 32
is malformed, id 31 parses. -/
theorem claimC3_witness :
    wGen._disassemble 32 = .error .malformedIdError ∧
    ∃ parts, wGen._disassemble 31 = .ok parts :=
  ⟨(claimC3_disassemble_malformed_iff wGen 32).1.mpr (by decide),
   (claimC3_disassemble_malformed_iff wGen 31).2 (by decide)⟩

/-- Claim C4: given one part per field, `_assemble` fails with the
assemble error exactly when some part lies outside `[0, mask]` for its
field, and packs the parts without error when all are in range. -/
theorem claimC4_assemble_error_iff (g : IdGenerator) (parts : List Int)
    (hlen : parts.length = g.fields.length) :
    (g._assemble parts = .error .assembleError ↔
      ∃ pf ∈ parts.zip g.fields, ¬(0 ≤ pf.1 ∧ pf.1 ≤ Int.ofNat pf.2.mask)) ∧
    ((∀ pf ∈ parts.zip g.fields, 0 ≤ pf.1 ∧ pf.1 ≤ Int.ofNat pf.2.mask) →
      g._assemble parts = .ok (closedFormSpec g.fields parts)) := by
  unfold IdGenerator._assemble
  rw [if_neg (by simp [hlen])]
  refine ⟨assembleLoop_error_iff _ 0, fun hin => ?_⟩
  simpa using assembleLoop_ok g.fields parts 0 hlen hin

/-- Witness for claim C4: part 16 exceeds the 2-bit first field's mask 3,
so assembly fails; in-range parts assemble. -/
theorem claimC4_witness :
    wGen._assemble [16, 2] = .error .assembleError ∧
    wGen._assemble [3, 2] = .ok (closedFormSpec wGen.fields [3, 2]) :=
  ⟨(claimC4_assemble_error_iff wGen [16, 2] (by decide)).1.mpr (by decide),
   (claimC4_assemble_error_iff wGen [3, 2] (by decide)).2 (by decide)⟩

/-- Claim C8: the iterative shift-and-or assembly equals the closed-form
sum `Σ part[i] << (bits[i+1] + ... + bits[n-1])` (first field most
significant). -/
theorem claimC8_assemble_closed_form (g : IdGenerator) (parts : List Int)
    (hlen : parts.length = g.fields.length)
    (hin : ∀ pf ∈ parts.zip g.fields, 0 ≤ pf.1 ∧ pf.1 ≤ Int.ofNat pf.2.mask) :
    g._assemble parts = .ok (closedFormSpec g.fields parts) := by
  unfold IdGenerator._assemble
  rw [if_neg (by simp [hlen])]
  simpa using assembleLoop_ok g.fields parts 0 hlen hin

/-- Witness for claim C8 at a concrete generator and parts list. -/
theorem claimC8_witness :
    wGen._assemble [2, 5] = .ok (closedFormSpec wGen.fields [2, 5]) :=
  claimC8_assemble_closed_form wGen [2, 5] (by decide) (by decide)

/-- Claim C10: whenever `_disassemble` returns, it returns exactly one
part per declared field, in field order, each within its field's mask. -/
theorem claimC10_disassemble_invariant (g : IdGenerator) (idNum : Nat) (parts : List Int)
    (hok : g._disassemble idNum = .ok parts) :
    parts.length = g.fields.length ∧
    ∀ pf ∈ parts.zip g.fields, 0 ≤ pf.1 ∧ pf.1 ≤ Int.ofNat pf.2.mask := by
  rw [disassemble_eq] at hok
  by_cases h : idNum / 2 ^ totalBits g.fields ≠ 0
  · rw [if_pos h] at hok
    exact Except.noConfusion hok
  · rw [if_neg h] at hok
    have hparts : parts = (lowParts g.fields.reverse idNum).reverse :=
      (Except.ok.inj hok).symm
    subst hparts
    have hlen2 : (lowParts g.fields.reverse idNum).length = g.fields.reverse.length :=
      lowParts_length _ _
    constructor
    · simp [lowParts_length]
    · intro pf hmem
      have hz : (lowParts g.fields.reverse idNum).reverse.zip g.fields
          = ((lowParts g.fields.reverse idNum).zip g.fields.reverse).reverse := by
        have hzz := zip_reverse (lowParts g.fields.reverse idNum) g.fields.reverse hlen2
        simpa using hzz
      rw [hz, List.mem_reverse] at hmem
      exact lowParts_in_range _ _ pf hmem

/-- Witness for claim C10 at a concrete generator and id. -/
theorem claimC10_witness :
    [(3 : Int), 2].length = wGen.fields.length ∧
    ∀ pf ∈ ([(3 : Int), 2]).zip wGen.fields, 0 ≤ pf.1 ∧ pf.1 ≤ Int.ofNat pf.2.mask :=
  claimC10_disassemble_invariant wGen 26 [3, 2] (by rfl)

/-- Claim C2 (amended): every Counter Store write performed by a
`generate` call happens during the generation phase; the encode and
assemble phases never touch any cache, so the caches `generate` leaves
behind are exactly the caches `_generate` left behind — a failed encode
triggers no further `set`, but writes already performed during
generation persist. -/
theorem claimC2_amended_no_set_after_generate_phase (g : IdGenerator)
    (custom : CustomData) (caches : List Cache) (ora : Nat → Int) :
    (g.generate custom caches ora).2 = (g._generate custom caches ora).2 := by
  unfold IdGenerator.generate
  split
  · next e cs h =>
    rw [h]
  · next info cs h =>
    rw [h]
    split
    · rfl
    · split <;> rfl

def nName : String := "n"

def seqName : String := "seq"

def boomStr : String := "boom"

def cexName : String := "cex"

/-- A generator with a number field and a sequence field, used to exhibit
a store write surviving a failed encode. -/
def cexGen : IdGenerator :=
  ⟨cexName, [NumberField.make nName 4 0 none,
             Field.sequence seqName 8 (0, 10000) (1, 10) []]⟩

def cexCustom : CustomData := [(nName, RawValue.badstr boomStr)]

/-- Counterexample to claim C2 as stated: pinning the number field to a
non-numeric string makes the encode step fail, yet the sequence counter
drawn during the generation phase (value 5 under key `seq`, previously
absent) has been written to the sequence field's cache by that same
`generate` call. -/
theorem claimC2_counterexample :
    (cexGen.generate cexCustom [[], []] (fun _ => 5)).1 = .error .encodeError ∧
    (cexGen.generate cexCustom [[], []] (fun _ => 5)).2 = [[], [(seqName, 5)]] ∧
    (([] : Cache).lookup seqName = none) :=
  ⟨rfl, rfl, rfl⟩

/-- Claim C5: `NumberField.decode` returns the number exactly when
`start ≤ n ≤ end` and fails with the range error otherwise; `encode` is
the identity on integer raw values; an unset `end` defaults to the mask. -/
theorem claimC5_numberField_decode_range (name : String) (bits : Nat) (start endVal n : Int) :
    (NumberField.decode start endVal n = .ok (.int n) ↔ (start ≤ n ∧ n ≤ endVal)) ∧
    (NumberField.decode start endVal n = .error .rangeError ↔ ¬(start ≤ n ∧ n ≤ endVal)) ∧
    Field.encode (.number name bits start endVal) (.int n) = .ok n ∧
    NumberField.make name bits start none = .number name bits start (Int.ofNat (2 ^ bits - 1)) := by
  refine ⟨?_, ?_, rfl, ?_⟩
  · unfold NumberField.decode
    by_cases h : start ≤ n ∧ n ≤ endVal
    · rw [if_neg (not_not_intro h)]
      exact iff_of_true rfl h
    · rw [if_pos h]
      exact iff_of_false (fun hc => Except.noConfusion hc) h
  · unfold NumberField.decode
    by_cases h : start ≤ n ∧ n ≤ endVal
    · rw [if_neg (not_not_intro h)]
      exact iff_of_false (fun hc => Except.noConfusion hc) (not_not_intro h)
    · rw [if_pos h]
      exact iff_of_true rfl h
  · simp [NumberField.make, Nat.shiftLeft_eq]

/-- Claim C9: for a fixed key, a sequence generation over a store that
holds `first` under the key returns `first + draw` for the step draw and
writes it back; over a store without the key it returns the start draw
and writes it. -/
theorem claimC9_sequence_generate (name : String) (startp stepp : Int × Int)
    (keys : List String) (info : Info) (cache : Cache) (draw : Int) (key : String)
    (hkey : SequenceField.key name keys info = .ok key) :
    (∀ first, cache.lookup key = some first →
      stepp.1 ≤ draw → draw ≤ stepp.2 →
      SequenceField.generate name startp stepp keys info cache draw
          = .ok (first + draw, (key, first + draw) :: cache) ∧
      first + stepp.1 ≤ first + draw ∧ first + draw ≤ first + stepp.2 ∧
      ((key, first + draw) :: cache).lookup key = some (first + draw)) ∧
    (cache.lookup key = none →
      startp.1 ≤ draw → draw ≤ startp.2 →
      SequenceField.generate name startp stepp keys info cache draw
          = .ok (draw, (key, draw) :: cache) ∧
      startp.1 ≤ draw ∧ draw ≤ startp.2 ∧
      ((key, draw) :: cache).lookup key = some draw) := by
  constructor
  · intro first hfound h1 h2
    refine ⟨?_, by omega, by omega, ?_⟩
    · unfold SequenceField.generate
      rw [hkey]
      show (match cache.lookup key with
            | some prev => Except.ok (prev + draw, (key, prev + draw) :: cache)
            | none => Except.ok (draw, (key, draw) :: cache))
          = Except.ok (first + draw, (key, first + draw) :: cache)
      rw [hfound]
    · simp [List.lookup]
  · intro habsent h1 h2
    refine ⟨?_, h1, h2, ?_⟩
    · unfold SequenceField.generate
      rw [hkey]
      show (match cache.lookup key with
            | some prev => Except.ok (prev + draw, (key, prev + draw) :: cache)
            | none => Except.ok (draw, (key, draw) :: cache))
          = Except.ok (draw, (key, draw) :: cache)
      rw [habsent]
    · simp [List.lookup]

/-- Witness for claim C9: a cached key advances by the draw; a fresh key
is seeded with the draw. -/
theorem claimC9_witness :
    (SequenceField.generate seqName (0, 10000) (1, 10) [] [] [(seqName, 100)] 3
        = .ok (103, (seqName, 103) :: [(seqName, 100)]) ∧
      (100 : Int) + 1 ≤ 103 ∧ (103 : Int) ≤ 100 + 10 ∧
      ((seqName, (103 : Int)) :: [(seqName, (100 : Int))]).lookup seqName = some 103) ∧
    (SequenceField.generate seqName (0, 10000) (1, 10) [] [] [] 7
        = .ok (7, (seqName, (7 : Int)) :: []) ∧
      (0 : Int) ≤ 7 ∧ (7 : Int) ≤ 10000 ∧
      ((seqName, (7 : Int)) :: ([] : Cache)).lookup seqName = some 7) :=
  ⟨(claimC9_sequence_generate seqName (0, 10000) (1, 10) [] [] [(seqName, 100)] 3 seqName
      rfl).1 100 rfl (by decide) (by decide),
   (claimC9_sequence_generate seqName (0, 10000) (1, 10) [] [] [] 7 seqName
      rfl).2 rfl (by decide) (by decide)⟩

theorem dtPrecision_seconds_pos (p : DateTimePrecision) : 0 < p.seconds := by
  cases p <;> decide

theorem tmPrecision_seconds_pos (p : TimePrecision) : 0 < p.seconds := by
  cases p <;> decide

theorem timeField_decode_ok_iff (p : TimePrecision) (n : Int) :
    (∃ v, TimeField.decode p n = .ok v) ↔
      0 ≤ n * Int.ofNat p.seconds ∧ n * Int.ofNat p.seconds < 86400 := by
  simp only [TimeField.decode]
  have hfd : Int.fdiv (n * Int.ofNat p.seconds) 3600 = (n * Int.ofNat p.seconds) / 3600 :=
    Int.fdiv_eq_ediv _ (by norm_num)
  rw [hfd]
  constructor
  · rintro ⟨v, hv⟩
    by_cases hc : (n * Int.ofNat p.seconds) / 3600 < 0 ∨ 23 < (n * Int.ofNat p.seconds) / 3600
    · rw [if_pos hc] at hv
      exact Except.noConfusion hv
    · push_neg at hc
      obtain ⟨hge, hle⟩ := hc
      constructor
      · omega
      · omega
  · rintro ⟨h1, h2⟩
    rw [if_neg (by omega)]
    exact ⟨_, rfl⟩

theorem dateTimeField_decode_ok_iff (p : DateTimePrecision) (base n : Int) :
    (∃ v, DateTimeField.decode p base n = .ok v) ↔
      0 ≤ base + n * Int.ofNat p.seconds ∧ base + n * Int.ofNat p.seconds ≤ pyMaxDateTime := by
  simp only [DateTimeField.decode]
  by_cases hc : base + n * Int.ofNat p.seconds < 0 ∨
      pyMaxDateTime < base + n * Int.ofNat p.seconds
  · rw [if_pos hc]
    constructor
    · rintro ⟨v, hv⟩
      exact Except.noConfusion hv
    · rintro ⟨h1, h2⟩
      exfalso
      rcases hc with hc | hc <;> omega
  · rw [if_neg hc]
    push_neg at hc
    exact iff_of_true ⟨_, rfl⟩ ⟨hc.1, hc.2⟩

/-- Claim C6 (amended): no non-Number variant enforces a configured
integer range narrower than the raw mask, but their decodes are not
total on `[0, mask]` either: `SequenceField`'s decode always succeeds;
`TimeField`'s decode succeeds exactly when the reconstructed
seconds-of-day value lies in `[0, 86400)` (`datetime.time` rejects an
hour outside 0..23); `DateTimeField`'s decode succeeds exactly when the
reconstructed instant is a representable datetime. -/
theorem claimC6_amended_decode_domains :
    (∀ (name : String) (bits : Nat) (start step : Int × Int) (keys : List String) (n : Int),
      Field.decode (.sequence name bits start step keys) n = .ok (.int n)) ∧
    (∀ (p : TimePrecision) (n : Int),
      (∃ v, TimeField.decode p n = .ok v) ↔
        0 ≤ n * Int.ofNat p.seconds ∧ n * Int.ofNat p.seconds < 86400) ∧
    (∀ (p : DateTimePrecision) (base n : Int),
      (∃ v, DateTimeField.decode p base n = .ok v) ↔
        0 ≤ base + n * Int.ofNat p.seconds ∧ base + n * Int.ofNat p.seconds ≤ pyMaxDateTime) :=
  ⟨fun _ _ _ _ _ _ => rfl, timeField_decode_ok_iff, dateTimeField_decode_ok_iff⟩

def tName : String := "t"

/-- Counterexample to claim C6 as stated: the 5-bit hour-precision
`TimeField` has mask 31, yet decoding 24 (i.e. 24:00:00) raises, because
`datetime.time` rejects hour 24 — so a non-Number variant does fail on
an in-mask integer. -/
theorem claimC6_counterexample :
    Field.decode (.time tName 5 .hour) 24 = .error .rangeError ∧
    (0 : Int) ≤ 24 ∧ (24 : Int) ≤ Int.ofNat (Field.mask (.time tName 5 .hour)) :=
  ⟨rfl, by decide, by decide⟩

theorem dateTime_roundtrip (p : DateTimePrecision) (base t : Int)
    (h0 : 0 ≤ t) (hmax : t ≤ pyMaxDateTime)
    (hdvd1 : Int.ofNat p.seconds ∣ t) (hdvd2 : Int.ofNat p.seconds ∣ (t - base)) :
    DateTimeField.encode p base (.dtstr p t)
        = .ok (Int.tdiv (t - base) (Int.ofNat p.seconds)) ∧
    DateTimeField.decode p base (Int.tdiv (t - base) (Int.ofNat p.seconds))
        = .ok (.dtstr p t) := by
  have hPpos : (0 : Int) < Int.ofNat p.seconds :=
    Int.ofNat_lt.mpr (dtPrecision_seconds_pos p)
  have hPne : Int.ofNat p.seconds ≠ 0 := ne_of_gt hPpos
  obtain ⟨k, hk⟩ := hdvd2
  have htd : Int.tdiv (t - base) (Int.ofNat p.seconds) = k := by
    rw [hk, Int.mul_tdiv_cancel_left _ hPne]
  constructor
  · simp [DateTimeField.encode]
  · have ht2 : base + k * Int.ofNat p.seconds = t := by
      have hcomm : k * Int.ofNat p.seconds = Int.ofNat p.seconds * k := Int.mul_comm _ _
      omega
    simp only [DateTimeField.decode, htd, ht2]
    rw [if_neg (by omega), Int.fdiv_eq_ediv_of_dvd hdvd1, Int.mul_ediv_cancel' hdvd1]

theorem time_roundtrip (p : TimePrecision) (t : Nat)
    (hlt : t < 86400) (hdvd : p.seconds ∣ t) :
    TimeField.encode p (.timestr p t) = .ok (Int.ofNat (t / p.seconds)) ∧
    TimeField.decode p (Int.ofNat (t / p.seconds)) = .ok (.timestr p t) := by
  have hseq : Int.ofNat (t / p.seconds) * Int.ofNat p.seconds = ((t : Nat) : Int) := by
    have hq : t / p.seconds * p.seconds = t := Nat.div_mul_cancel hdvd
    exact_mod_cast congrArg Int.ofNat hq
  constructor
  · simp [TimeField.encode]
  · simp only [TimeField.decode, hseq]
    have hfd : Int.fdiv ((t : Int)) 3600 = (t : Int) / 3600 :=
      Int.fdiv_eq_ediv _ (by norm_num)
    have hfm : Int.fmod ((t : Int)) 3600 = (t : Int) % 3600 :=
      Int.fmod_eq_emod _ (by norm_num)
    have hfd2 : Int.fdiv (Int.fmod ((t : Int)) 3600) 60 = ((t : Int) % 3600) / 60 := by
      rw [hfm]
      exact Int.fdiv_eq_ediv _ (by norm_num)
    have hfm2 : Int.fmod (Int.fmod ((t : Int)) 3600) 60 = ((t : Int) % 3600) % 60 := by
      rw [hfm]
      exact Int.fmod_eq_emod _ (by norm_num)
    rw [hfd, hfd2, hfm2, if_neg (by omega)]
    have htot : ((t : Int) / 3600 * 3600 + ((t : Int) % 3600) / 60 * 60
        + ((t : Int) % 3600) % 60).toNat = t := by omega
    rw [htot, Nat.mul_div_cancel' hdvd]

/-- Claim C7 (amended): the encode/decode round trip of the time fields
is exact at the declared precision for every well-formed formatted
string, provided (for `DateTimeField`) the elapsed time from `base` to
the instant is a whole number of precision units — i.e. `base` is
aligned to the precision relative to the instant; a misaligned base
shifts the truncation bucket and breaks the round trip.  `TimeField`
(which has no base) round-trips unconditionally. -/
theorem claimC7_amended_roundtrip :
    (∀ (p : DateTimePrecision) (base t : Int),
      0 ≤ t → t ≤ pyMaxDateTime → Int.ofNat p.seconds ∣ t →
      Int.ofNat p.seconds ∣ (t - base) →
      ∃ n, DateTimeField.encode p base (.dtstr p t) = .ok n ∧
        DateTimeField.decode p base n = .ok (.dtstr p t)) ∧
    (∀ (p : TimePrecision) (t : Nat),
      t < 86400 → p.seconds ∣ t →
      ∃ n, TimeField.encode p (.timestr p t) = .ok n ∧
        TimeField.decode p n = .ok (.timestr p t)) :=
  ⟨fun p base t h0 hmax h1 h2 => ⟨_, dateTime_roundtrip p base t h0 hmax h1 h2⟩,
   fun p t h1 h2 => ⟨_, time_roundtrip p t h1 h2⟩⟩

/-- Witness for claim C7 (amended) at concrete aligned inputs. -/
theorem claimC7_witness :
    (∃ n, DateTimeField.encode .minute 60 (.dtstr .minute 120) = .ok n ∧
      DateTimeField.decode .minute 60 n = .ok (.dtstr .minute 120)) ∧
    (∃ n, TimeField.encode .minute (.timestr .minute 3600) = .ok n ∧
      TimeField.decode .minute n = .ok (.timestr .minute 3600)) :=
  ⟨claimC7_amended_roundtrip.1 .minute 60 120 (by decide) (by decide)
      ⟨2, by decide⟩ ⟨1, by decide⟩,
   claimC7_amended_roundtrip.2 .minute 3600 (by decide) ⟨60, by decide⟩⟩

/-- Counterexample to claim C7 as stated: a minute-precision field whose
base is 30 seconds past a minute boundary.  The well-formed minute
string at instant 60 encodes (truncating 30/60 towards zero) to 0, but
decoding 0 lands in the bucket of instant 0, not 60: the round trip is
not exact when the base is not aligned to the precision. -/
theorem claimC7_counterexample :
    DateTimeField.encode .minute 30 (.dtstr .minute 60) = .ok 0 ∧
    DateTimeField.decode .minute 30 0 = .ok (.dtstr .minute 0) ∧
    (RawValue.dtstr .minute 0 ≠ RawValue.dtstr .minute 60) ∧
    (0 : Int) ≤ 60 ∧ (60 : Int) ≤ pyMaxDateTime ∧
    Int.ofNat (DateTimePrecision.minute.seconds) ∣ (60 : Int) :=
  ⟨rfl, rfl, by decide, by decide, by decide, ⟨1, by decide⟩⟩

end IdGen
